import Mathlib

/-
Verification of the mongo-to-s3 export engine (main.go, config/config.go).

The Go program is shallowly embedded: Go `interface{}` values decoded from
BSON documents become the inductive `Value`; Go maps (`optimus.Row`,
`map[string]interface{}`) become association lists in insertion order
(`assign` mirrors Go map assignment: overwrite in place, append when fresh;
Go's nondeterministic map iteration order is determinized to list order).
Fallible transform stages return `Except TransformError Row`, mirroring the
optimus `func(Row) (Row, error)` contract.
-/

/-- JSON-like values decoded from BSON documents (Go `interface{}`). -/
inductive Value where
  | int (n : Int)
  | str (s : String)
  | bool (b : Bool)
  | arr (vs : List Value)
  | obj (fields : List (String × Value))
deriving Repr

/-- A row: Go `optimus.Row = map[string]interface{}`, determinized to an
association list in insertion order. -/
abbrev Row := List (String × Value)

/-- Error value of the optimus transform contract (`error` in Go). -/
structure TransformError where
  msg : String
deriving Repr

/-- Go map assignment `m[k] = v`: overwrite in place when the key exists,
append when fresh. -/
def assign (r : Row) (k : String) (v : Value) : Row :=
  if r.any (fun p => p.1 = k) then
    r.map (fun p => if p.1 = k then (k, v) else p)
  else
    r ++ [(k, v)]

/-- Go map lookup `v, ok := m[k]`. -/
def rowGet (r : Row) (k : String) : Option Value :=
  (r.find? (fun p => p.1 = k)).map (fun p => p.2)

/-- Keys of a row. -/
def rowKeys (r : Row) : List String := r.map Prod.fst

/-- Escape of one character inside a JSON string (Go `json.Marshal`). -/
def jsonEscapeChar (c : Char) : String :=
  if c = '"' then "\\\"" else if c = '\\' then "\\\\" else String.singleton c

/-- JSON string quoting (Go `json.Marshal` on a string). -/
def jsonQuote (s : String) : String :=
  "\"" ++ String.join (s.data.map jsonEscapeChar) ++ "\""

mutual
/-- Go `json.Marshal` on a decoded value.  (Go's encoding/json emits map
keys in sorted order; serialized-object key order is irrelevant to every
property proved here, so object entries are emitted in row order.) -/
def jsonMarshal : Value → String
  | .int n => toString n
  | .str s => jsonQuote s
  | .bool b => if b then "true" else "false"
  | .arr vs => "[" ++ jsonMarshalElems vs ++ "]"
  | .obj m => "\x7b" ++ jsonMarshalFields m ++ "\x7d"

/-- Comma-separated serialization of array elements. -/
def jsonMarshalElems : List Value → String
  | [] => ""
  | [v] => jsonMarshal v
  | v :: rest => jsonMarshal v ++ "," ++ jsonMarshalElems rest

/-- Comma-separated serialization of object fields. -/
def jsonMarshalFields : List (String × Value) → String
  | [] => ""
  | [(k, v)] => jsonQuote k ++ ":" ++ jsonMarshal v
  | (k, v) :: rest => jsonQuote k ++ ":" ++ jsonMarshal v ++ "," ++ jsonMarshalFields rest
end

mutual
/-- config/config.go `flatten(inputJSON, lkey, flattened)`: iterates the
entries of `inputJSON` (list order standing for Go's map iteration),
dispatching on each value. -/
def flatten : Row → String → Row → Row
  | [], _, acc => acc
  | (rkey, value) :: rest, lkey, acc => flatten rest lkey (flattenValue (lkey ++ rkey) value acc)

/-- One entry of the `flatten` loop: the `switch v := value.(type)` body.
Nested mappings recurse with `key ++ "."`; arrays store their JSON
serialization under `key` and then flatten nested-mapping elements with the
same `key ++ "."` prefix; scalars are assigned as-is. -/
def flattenValue : String → Value → Row → Row
  | key, .obj m, acc => flatten m (key ++ ".") acc
  | key, .arr vs, acc => flattenElems (key ++ ".") vs (assign acc key (.str (jsonMarshal (.arr vs))))
  | key, v, acc => assign acc key v

/-- The `for _, subvalues := range v` loop over array elements: elements
that are nested mappings are flattened with the array's own prefix, all
other elements are skipped. -/
def flattenElems : String → List Value → Row → Row
  | _, [], acc => acc
  | pre, .obj m :: rest, acc => flattenElems pre rest (flatten m pre acc)
  | pre, _ :: rest, acc => flattenElems pre rest acc
end

/-- config/config.go `Flattener()`: always returns `(outRow, nil)` where
`outRow` is the flattening of the input row starting from the empty prefix
and an empty output row. -/
def Flattener : Row → Except TransformError Row :=
  fun r => .ok (flatten r "" [])

/-- config/config.go `Field` (named `FieldSpec` here to avoid clashing with Mathlib): one column mapping of a table. -/
structure FieldSpec where
  Destination : String
  Source : String
  PII : Bool
deriving Repr, DecidableEq

/-- config/config.go `Meta`: table metadata. -/
structure Meta where
  Database : String
  DataDateColumn : String
  UseProjectionOptimization : Bool
deriving Repr

/-- config/config.go `Table`: one collection's export configuration. -/
structure Table where
  Destination : String
  Source : String
  Fields : List FieldSpec
  Meta : Meta
deriving Repr

/-- Go `mappings[k] = append(mappings[k], v)` on a `map[string][]string`
(determinized to insertion order): extend the list at an existing key in
place, or append a fresh singleton binding. -/
def multiAppend (m : List (String × List String)) (k v : String) : List (String × List String) :=
  if m.any (fun p => p.1 = k) then
    m.map (fun p => if p.1 = k then (k, p.2 ++ [v]) else p)
  else
    m ++ [(k, [v])]

/-- config/config.go `Table.FieldMap`: mapping of all fields between source
and destination; fields with an empty destination are skipped. -/
def Table.FieldMap (t : Table) : List (String × List String) :=
  t.Fields.foldl
    (fun mappings field =>
      if field.Destination ≠ "" then multiAppend mappings field.Source field.Destination
      else mappings)
    []

/-- config/config.go `IsZeroOfUnderlyingType`, on the embedded value domain:
`reflect.DeepEqual(x, reflect.Zero(reflect.TypeOf(x)).Interface())`.  Zero
values: `0` for numbers, `""` for strings, `false` for booleans; a decoded
(non-nil) slice or map is never `DeepEqual` to the nil zero value of its
type. -/
def IsZeroOfUnderlyingType : Value → Bool
  | .int n => n = 0
  | .str s => s = ""
  | .bool b => !b
  | .arr _ => false
  | .obj _ => false

/-- The loop body of the existential transformer for one field: for a PII
field, `val, ok := r[field.Source]`; when absent assign `ok` (i.e. `false`),
otherwise assign `!IsZeroOfUnderlyingType(val)`; non-PII fields are left
alone. -/
def piiStep (r : Row) (field : FieldSpec) : Row :=
  if field.PII then
    match rowGet r field.Source with
    | none => assign r field.Source (.bool false)
    | some val => assign r field.Source (.bool (!IsZeroOfUnderlyingType val))
  else r

/-- The `for _, field := range t.Fields` loop of the existential
transformer. -/
def piiFold (fields : List FieldSpec) (r : Row) : Row :=
  fields.foldl piiStep r

/-- config/config.go `GetExistentialTransformerFn`: turns each PII field
into a boolean recording whether it exists (non-zero); always returns
`(r, nil)`. -/
def GetExistentialTransformerFn (t : Table) : Row → Except TransformError Row :=
  fun r => .ok (piiFold t.Fields r)

/-- config/config.go `GetPopulateDateFn`: sets the data date column to the
run timestamp; always returns `(r, nil)`. -/
def GetPopulateDateFn (dataDateColumn timestamp : String) : Row → Except TransformError Row :=
  fun r => .ok (assign r dataDateColumn (.str timestamp))

/-- Modelled from the spec: the optimus `Fieldmap` transform
(`gopkg.in/Clever/optimus.v3/transforms`, an external library not under
src/), per spec §4.1 FieldRemap: "produces a new row containing only
destination keys: for each FieldSpec with non-empty destPath, copies the
sourcePath value into destPath (one source may fan to multiple
destinations). Unmapped source keys and empty-destPath fields are dropped."
It never fails. -/
def Fieldmap (mappings : List (String × List String)) : Row → Except TransformError Row :=
  fun r => .ok (mappings.foldl
    (fun newRow p =>
      match rowGet r p.1 with
      | none => newRow
      | some v => p.2.foldl (fun nr d => assign nr d v) newRow)
    [])

/-- main.go `exportData`'s transform chain applied to one row, in the order
written in the source: `.Map(config.Flattener())` then
`.Map(existentialTransformer)` then `.Fieldmap(table.FieldMap())` then
`.Map(datePopulator)`; the final counting `.Map` is handled by
`exportData` itself. -/
def runPipeline (table : Table) (timestamp : String) (r : Row) : Except TransformError Row :=
  (Flattener r).bind fun r1 =>
    (GetExistentialTransformerFn table r1).bind fun r2 =>
      (Fieldmap table.FieldMap r2).bind fun r3 =>
        GetPopulateDateFn table.Meta.DataDateColumn timestamp r3

/-- Result of main.go `exportData`: the returned row count, the rows
delivered to the sink, and the error returned by the transformer chain. -/
structure ExportResult where
  rows : Nat
  out : List Row
  err : Option TransformError
deriving Repr

/-- One row of the `exportData` stream: rows flow through the pipeline one
at a time; the first error aborts the stream, rows that pass are counted by
the final `.Map` and written to the sink. -/
def exportStep (table : Table) (timestamp : String) (res : ExportResult) (r : Row) : ExportResult :=
  match res.err with
  | some _ => res
  | none =>
    match runPipeline table timestamp r with
    | .error e => { res with err := some e }
    | .ok r' => { rows := res.rows + 1, out := res.out ++ [r'], err := none }

/-- main.go `exportData`: streams the source rows through the transform
chain into the sink, counting rows in the final `.Map` stage, and returns
`(rows, err)`. -/
def exportData (source : List Row) (table : Table) (timestamp : String) : ExportResult :=
  source.foldl (exportStep table timestamp) { rows := 0, out := [], err := none }

/-- Numeric value of a decimal digit character. -/
def digitVal (c : Char) : Nat := c.toNat - 48

/-- Go `time.Parse(time.RFC3339, s)` restricted to the canonical UTC form
`YYYY-MM-DDThh:mm:ssZ` that main.go produces via
`time.Now().UTC()...Format(time.RFC3339)`; returns the (year, month, day)
of the parsed time, or `none` when the string does not parse. -/
def parseRFC3339 (s : String) : Option (Nat × Nat × Nat) :=
  match s.data with
  | [y1, y2, y3, y4, c1, m1, m2, c2, d1, d2, ct, h1, h2, c3, n1, n2, c4, s1, s2, cz] =>
    if c1 = '-' ∧ c2 = '-' ∧ ct = 'T' ∧ c3 = ':' ∧ c4 = ':' ∧ cz = 'Z'
        ∧ y1.isDigit ∧ y2.isDigit ∧ y3.isDigit ∧ y4.isDigit
        ∧ m1.isDigit ∧ m2.isDigit ∧ d1.isDigit ∧ d2.isDigit
        ∧ h1.isDigit ∧ h2.isDigit ∧ n1.isDigit ∧ n2.isDigit
        ∧ s1.isDigit ∧ s2.isDigit then
      let y := 1000 * digitVal y1 + 100 * digitVal y2 + 10 * digitVal y3 + digitVal y4
      let mo := 10 * digitVal m1 + digitVal m2
      let da := 10 * digitVal d1 + digitVal d2
      let h := 10 * digitVal h1 + digitVal h2
      let mi := 10 * digitVal n1 + digitVal n2
      let se := 10 * digitVal s1 + digitVal s2
      if 1 ≤ mo ∧ mo ≤ 12 ∧ 1 ≤ da ∧ da ≤ 31 ∧ h ≤ 23 ∧ mi ≤ 59 ∧ se ≤ 59 then
        some (y, mo, da)
      else none
    else none
  | _ => none

/-- Go's `%02d` format verb: decimal with a minimum width of two, zero
padded. -/
def pad2 (n : Nat) : String :=
  if n < 10 then "0" ++ toString n else toString n

/-- main.go `formatFilename`: the nonempty file index gets an underscore
prefix; `t, _ := time.Parse(time.RFC3339, timestamp)` (on parse failure `t`
is Go's zero time: January 1 of year 1); the path is
`mongo/<collection>/_data_timestamp_year=YY/_data_timestamp_month=MM/_data_timestamp_day=DD/`
followed by `mongo_<collection>_<timestamp><index><extension>`. -/
def formatFilename (timestamp collectionName fileIndex extension : String) : String :=
  let fileIndex := if fileIndex ≠ "" then "_" ++ fileIndex else fileIndex
  let ymd := (parseRFC3339 timestamp).getD (1, 1, 1)
  let filePath := "mongo/" ++ collectionName ++ "/_data_timestamp_year=" ++ pad2 ymd.1 ++
    "/_data_timestamp_month=" ++ pad2 ymd.2.1 ++ "/_data_timestamp_day=" ++ pad2 ymd.2.2 ++ "/"
  let fileName := "mongo_" ++ collectionName ++ "_" ++ timestamp ++ fileIndex ++ extension
  filePath ++ fileName

/-- main.go manifest entry: one element of `EntryArray`, a map with keys
`url` and `mandatory`. -/
structure ManifestEntry where
  url : String
  mandatory : Bool
deriving Repr

/-- main.go `Manifest`: the s3 manifest file used to load into redshift. -/
structure Manifest where
  Entries : List ManifestEntry
deriving Repr

/-- main.go `createManifest`: for each data filename, in order, one entry
`{"url": "s3://<bucket>/<fn>", "mandatory": true}`. -/
def createManifest (bucket : String) (dataFilenames : List String) : Manifest :=
  ⟨dataFilenames.map (fun fn => ⟨"s3://" ++ bucket ++ "/" ++ fn, true⟩)⟩

/-- Go `json.Marshal` of one manifest entry (a `map[string]interface{}`;
encoding/json emits map keys in sorted order: `mandatory` before `url`). -/
def manifestEntryJson (e : ManifestEntry) : String :=
  "\x7b\"mandatory\":" ++ (if e.mandatory then "true" else "false") ++
    ",\"url\":" ++ jsonQuote e.url ++ "\x7d"

/-- Go `json.Marshal(Manifest{Entries: entryArray})`: the body uploaded as
the manifest object. -/
def manifestJson (m : Manifest) : String :=
  "\x7b\"entries\":[" ++ String.intercalate "," (m.Entries.map manifestEntryJson) ++ "]\x7d"

/-- Outcome of one run of main.go's export (after the `waitGroup.Wait()`
barrier everything is sequential).  `log.Fatal*` calls terminate the
process, giving the `fatal*` outcomes; `success` records the published
manifest and its object path. -/
inductive RunOutcome where
  | fatalTransform
  | fatalUpload (shard : Nat)
  | fatalConsistency (written read : Int)
  | fatalManifest
  | success (manifestPath : String) (manifest : Manifest)
deriving Repr

/-- main.go lines 348-359: after the barrier, compare `totalSummedRows`
with `totalMongoRows`; on mismatch `log.Fatalf` fires before any manifest
work; otherwise the manifest is created from the output filenames and
uploaded to `formatFilename(timestamp, dest, "", ".manifest")` (its upload
failure is itself fatal). -/
def verifyAndPublish (totalSummedRows totalMongoRows : Int) (bucket : String)
    (outputFilenames : List String) (dest timestamp : String)
    (manifestUploadOk : Bool) : RunOutcome :=
  if totalSummedRows ≠ totalMongoRows then
    .fatalConsistency totalSummedRows totalMongoRows
  else
    let manifestFilename := formatFilename timestamp dest "" ".manifest"
    let manifest := createManifest bucket outputFilenames
    if manifestUploadOk then .success manifestFilename manifest else .fatalManifest

/-- Whether a run outcome published the manifest. -/
def manifestPublished : RunOutcome → Bool
  | .success _ _ => true
  | _ => false

/-- The rows claimed by shard `i`: the fan-out hands each source row to
exactly one of the `numFiles` concurrent `exportData` workers, recorded
here by pairing each row with the index of the shard that claimed it. -/
def shardRows (source : List Row) (labels : List Nat) (i : Nat) : List Row :=
  ((source.zip labels).filter (fun p => p.2 = i)).map Prod.fst

/-- main.go `main`, from the fan-out loop to the end: `numFiles` workers
each run `exportData` over the rows they claim (`labels` records which
shard claimed each source row); `totalMongoRows` counts every row read
from the source (the `transforms.Each` wrapper); `totalSummedRows`
accumulates the per-shard `exportData` counts; any worker transform error
or any shard upload error is fatal (`log.Fatal` kills the process before
the manifest step); otherwise `verifyAndPublish` runs. -/
def runMain (numFiles : Nat) (source : List Row) (labels : List Nat) (table : Table)
    (bucket timestamp : String) (uploadOk : Nat → Bool) (manifestUploadOk : Bool) :
    RunOutcome :=
  let outputFilenames := (List.range numFiles).map
    (fun i => formatFilename timestamp table.Destination (toString i) ".json.gz")
  let results := (List.range numFiles).map
    (fun i => exportData (shardRows source labels i) table timestamp)
  let totalMongoRows : Int := source.length
  let totalSummedRows : Int := (results.map (fun res => (res.rows : Int))).sum
  if results.any (fun res => res.err.isSome) then .fatalTransform
  else
    match (List.range numFiles).find? (fun i => !uploadOk i) with
    | some i => .fatalUpload i
    | none =>
      verifyAndPublish totalSummedRows totalMongoRows bucket outputFilenames
        table.Destination timestamp manifestUploadOk

/-- The two ways the program updates a shared counter. -/
inductive IncrementStyle where
  | plain
  | atomic
deriving Repr, DecidableEq

/-- main.go line 301: `totalMongoRows++` inside the `transforms.Each`
wrapper — a plain, non-atomic increment. -/
def totalMongoRowsIncrement : IncrementStyle := .plain

/-- main.go line 336: `atomic.AddInt64(&totalSummedRows, int64(count))` —
an atomic increment ("need to do this atomically to avoid concurrency
issues"). -/
def totalSummedRowsIncrement : IncrementStyle := .atomic

/-- State of one thread performing a plain (read; write-back) increment:
`pc = 0` about to read, `pc = 1` about to write `reg + 1`, `pc = 2` done. -/
structure PlainThread where
  pc : Nat
  reg : Nat
deriving Repr

/-- One scheduler step of a plain read-modify-write increment. -/
def plainStep (c : Nat) (t : PlainThread) : Nat × PlainThread :=
  match t.pc with
  | 0 => (c, { pc := 1, reg := c })
  | 1 => (t.reg + 1, { t with pc := 2 })
  | _ => (c, t)

/-- Run two threads, each performing one plain increment, under a schedule
(`true` steps thread A, `false` steps thread B); returns the final counter. -/
def runPlainSched : List Bool → Nat → PlainThread → PlainThread → Nat
  | [], c, _, _ => c
  | b :: rest, c, tA, tB =>
    if b then
      let s := plainStep c tA
      runPlainSched rest s.1 s.2 tB
    else
      let s := plainStep c tB
      runPlainSched rest s.1 tA s.2

/-- Final counter after two concurrent plain increments of a counter
starting at 0, under the given schedule. -/
def execPlain (sched : List Bool) : Nat :=
  runPlainSched sched 0 ⟨0, 0⟩ ⟨0, 0⟩

/-- One scheduler step of an atomic increment: a single indivisible
fetch-and-add; `done` records whether the thread already ran. -/
def atomicStep (c : Nat) (done : Bool) : Nat × Bool :=
  if done then (c, true) else (c + 1, true)

/-- Run two threads, each performing one atomic increment, under a
schedule; returns the final counter. -/
def runAtomicSched : List Bool → Nat → Bool → Bool → Nat
  | [], c, _, _ => c
  | b :: rest, c, dA, dB =>
    if b then
      let s := atomicStep c dA
      runAtomicSched rest s.1 s.2 dB
    else
      let s := atomicStep c dB
      runAtomicSched rest s.1 dA s.2

/-- Final counter after two concurrent atomic increments of a counter
starting at 0, under the given schedule. -/
def execAtomic (sched : List Bool) : Nat :=
  runAtomicSched sched 0 false false

/-- A value is flat when it is neither a nested mapping nor an array. -/
def isFlatVal : Value → Bool
  | .arr _ => false
  | .obj _ => false
  | _ => true

/-- A value is a nested mapping. -/
def isObjVal : Value → Bool
  | .obj _ => true
  | _ => false

/-- A well-formed image of a Go map: every value flat, keys distinct. -/
def GoodRow (r : Row) : Prop :=
  (∀ p ∈ r, isFlatVal p.2 = true) ∧ (rowKeys r).Nodup

/-- The boolean the existential transformer records for key `k`, in terms
of the original row: `false` when the key is absent, otherwise the
non-zero-ness of the stored value. -/
def piiBool (r : Row) (k : String) : Bool :=
  match rowGet r k with
  | none => false
  | some v => !IsZeroOfUnderlyingType v

/-- Invariant relating the original row to a partially PII-processed row:
every key either still holds its original value or already holds the
boolean the transformer computes from the original row. -/
def MidRow (r acc : Row) : Prop :=
  ∀ k, rowGet acc k = rowGet r k ∨ rowGet acc k = some (.bool (piiBool r k))

/-- The table of the spec's worked example (§8): FieldSpecs
`{source:"a.b",dest:"x",pii:false}` and `{source:"a.c",dest:"y",pii:true}`,
date column `_data_timestamp`. -/
def exampleTable : Table :=
  { Destination := "ex"
    Source := "ex_src"
    Fields := [{ Destination := "x", Source := "a.b", PII := false },
               { Destination := "y", Source := "a.c", PII := true }]
    Meta := { Database := "", DataDateColumn := "_data_timestamp",
              UseProjectionOptimization := false } }

/-- The input row of the spec's worked example: `{a:{b:5,c:0}}`. -/
def exampleRow : Row := [("a", .obj [("b", .int 5), ("c", .int 0)])]

/-- The shard object path pattern exactly as the claim states it:
`<collection>/_data_timestamp_year=YYYY/_data_timestamp_month=MM/_data_timestamp_day=DD/mongo_<dest>_<timestamp>[_<shardIndex>].json.gz`,
with the `_<shardIndex>` suffix present exactly when a shard index is
supplied (stated from the spec's words, for comparison against
`formatFilename`). -/
def claimedShardPath (timestamp collectionName fileIndex : String) (y m d : Nat) : String :=
  collectionName ++ "/_data_timestamp_year=" ++ pad2 y ++
    "/_data_timestamp_month=" ++ pad2 m ++ "/_data_timestamp_day=" ++ pad2 d ++
    "/" ++ ("mongo_" ++ collectionName ++ "_" ++ timestamp ++
      (if fileIndex ≠ "" then "_" ++ fileIndex else "") ++ ".json.gz")

theorem goodRow_nil : GoodRow [] := by
  constructor
  · intro p hp; cases hp
  · simp [rowKeys]

theorem rowGet_cons (p : String × Value) (r : Row) (k : String) :
    rowGet (p :: r) k = if p.1 = k then some p.2 else rowGet r k := by
  by_cases h : p.1 = k <;> simp [rowGet, List.find?_cons, h]

theorem rowGet_append (r s : Row) (k : String) :
    rowGet (r ++ s) k = match rowGet r k with
      | some v => some v
      | none => rowGet s k := by
  induction r with
  | nil => simp [rowGet]
  | cons p t ih =>
    by_cases h : p.1 = k <;> simp [rowGet_cons, h, ih]

theorem rowGet_eq_none_of_any_eq_false (r : Row) (k : String)
    (h : (r.any fun p => p.1 = k) = false) : rowGet r k = none := by
  induction r with
  | nil => rfl
  | cons p t ih =>
    simp only [List.any_cons, Bool.or_eq_false_iff] at h
    have hp : ¬(p.1 = k) := by simpa using h.1
    simp [rowGet_cons, hp, ih h.2]

theorem rowGet_map_overwrite (r : Row) (k : String) (v : Value) :
    rowGet (r.map fun p => if p.1 = k then (k, v) else p) k
      = if (r.any fun p => p.1 = k) then some v else none := by
  induction r with
  | nil => simp [rowGet]
  | cons p t ih =>
    by_cases h : p.1 = k
    · simp [h, rowGet_cons]
    · simp only [List.map_cons, if_neg h]
      rw [rowGet_cons]
      simp only [h, if_false, ih, List.any_cons]
      cases ht : t.any fun p => decide (p.1 = k) <;> simp [h, ht]

theorem rowGet_map_overwrite_ne (r : Row) (k : String) (v : Value) (k' : String) (h : k' ≠ k) :
    rowGet (r.map fun p => if p.1 = k then (k, v) else p) k' = rowGet r k' := by
  induction r with
  | nil => rfl
  | cons p t ih =>
    by_cases hp : p.1 = k
    · simp only [List.map_cons, if_pos hp]
      rw [rowGet_cons, rowGet_cons]
      have h1 : ¬(k = k') := fun e => h e.symm
      have h2 : ¬(p.1 = k') := by rw [hp]; exact h1
      simp [h1, h2, ih]
    · simp only [List.map_cons, if_neg hp]
      rw [rowGet_cons, rowGet_cons]
      by_cases hp' : p.1 = k' <;> simp [hp', ih]

theorem rowGet_assign_self (r : Row) (k : String) (v : Value) :
    rowGet (assign r k v) k = some v := by
  unfold assign
  by_cases h : (r.any fun p => p.1 = k) = true
  · simp only [h, if_true]
    rw [rowGet_map_overwrite, h]
    simp
  · have h' : (r.any fun p => p.1 = k) = false := by
      revert h; cases r.any fun p => p.1 = k <;> simp
    simp only [h', Bool.false_eq_true, if_false]
    rw [rowGet_append, rowGet_eq_none_of_any_eq_false r k h']
    simp [rowGet_cons]

theorem any_key_eq_false_iff (r : Row) (k : String) :
    (r.any fun p => p.1 = k) = false ↔ k ∉ rowKeys r := by
  rw [← Bool.not_eq_true, List.any_eq_true]
  simp [rowKeys, List.mem_map]

theorem assign_not_mem (r : Row) (k : String) (v : Value) (h : k ∉ rowKeys r) :
    assign r k v = r ++ [(k, v)] := by
  unfold assign
  rw [if_neg]
  intro hc
  rw [← Bool.not_eq_false] at hc
  exact hc ((any_key_eq_false_iff r k).mpr h)

theorem rowKeys_map_overwrite (r : Row) (k : String) (v : Value) :
    rowKeys (r.map fun p => if p.1 = k then (k, v) else p) = rowKeys r := by
  simp only [rowKeys, List.map_map]
  apply List.map_congr_left
  intro p _
  by_cases h : p.1 = k <;> simp [h]

theorem good_assign (r : Row) (k : String) (v : Value) (hg : GoodRow r)
    (hv : isFlatVal v = true) : GoodRow (assign r k v) := by
  unfold assign
  by_cases h : (r.any fun p => p.1 = k) = true
  · simp only [h, if_true]
    constructor
    · intro p hp
      rcases List.mem_map.mp hp with ⟨q, hq, rfl⟩
      by_cases hqk : q.1 = k
      · simpa [hqk] using hv
      · simpa [hqk] using hg.1 q hq
    · rw [rowKeys_map_overwrite]
      exact hg.2
  · have h' : (r.any fun p => p.1 = k) = false := by
      revert h; cases r.any fun p => p.1 = k <;> simp
    have hk : k ∉ rowKeys r := (any_key_eq_false_iff r k).mp h'
    simp only [h', Bool.false_eq_true, if_false]
    constructor
    · intro p hp
      rcases List.mem_append.mp hp with hp | hp
      · exact hg.1 p hp
      · simp only [List.mem_singleton] at hp
        simpa [hp] using hv
    · simp only [rowKeys, List.map_append, List.map_cons, List.map_nil]
      rw [List.nodup_append]
      refine ⟨hg.2, List.nodup_singleton k, ?_⟩
      intro a ha hb
      simp only [List.mem_singleton] at hb
      subst hb
      exact hk ha

theorem value_sizeOf_pos (v : Value) : 0 < sizeOf v := by
  cases v <;> simp_arith

theorem list_sizeOf_pos {α : Type} [SizeOf α] (l : List α) : 0 < sizeOf l := by
  cases l <;> simp_arith

theorem flatten_good (fuel : Nat) :
    (∀ (v : Value) (key : String) (acc : Row),
        sizeOf v ≤ fuel → GoodRow acc → GoodRow (flattenValue key v acc)) ∧
    (∀ (l : Row) (lkey : String) (acc : Row),
        sizeOf l ≤ fuel → GoodRow acc → GoodRow (flatten l lkey acc)) ∧
    (∀ (pre : String) (l : List Value) (acc : Row),
        sizeOf l ≤ fuel → GoodRow acc → GoodRow (flattenElems pre l acc)) := by
  induction fuel with
  | zero =>
    refine ⟨fun v _ _ h _ => absurd h ?_, fun l _ _ h _ => absurd h ?_,
      fun _ l _ h _ => absurd h ?_⟩
    · have := value_sizeOf_pos v; omega
    · have := list_sizeOf_pos l; omega
    · have := list_sizeOf_pos l; omega
  | succ n ih =>
    obtain ⟨ihv, ihl, ihe⟩ := ih
    refine ⟨?_, ?_, ?_⟩
    · intro v key acc hs hg
      cases v with
      | int m => exact good_assign acc key _ hg rfl
      | str s => exact good_assign acc key _ hg rfl
      | bool b => exact good_assign acc key _ hg rfl
      | obj m =>
        simp only [flattenValue]
        refine ihl m _ acc ?_ hg
        simp only [Value.obj.sizeOf_spec] at hs; omega
      | arr vs =>
        simp only [flattenValue]
        refine ihe _ vs _ ?_ (good_assign acc key _ hg rfl)
        simp only [Value.arr.sizeOf_spec] at hs; omega
    · intro l lkey acc hs hg
      cases l with
      | nil => simpa [flatten] using hg
      | cons p rest =>
        obtain ⟨rkey, value⟩ := p
        simp only [flatten]
        refine ihl rest lkey _ ?_ (ihv value _ acc ?_ hg) <;>
          · simp only [List.cons.sizeOf_spec, Prod.mk.sizeOf_spec] at hs; omega
    · intro pre l acc hs hg
      cases l with
      | nil => simpa [flattenElems] using hg
      | cons v rest =>
        have hrest : sizeOf rest ≤ n := by
          simp only [List.cons.sizeOf_spec] at hs
          have := value_sizeOf_pos v; omega
        cases v with
        | obj m =>
          simp only [flattenElems]
          refine ihe pre rest _ hrest (ihl m pre acc ?_ hg)
          simp only [List.cons.sizeOf_spec, Value.obj.sizeOf_spec] at hs; omega
        | int m => exact ihe pre rest acc hrest hg
        | str s => exact ihe pre rest acc hrest hg
        | bool b => exact ihe pre rest acc hrest hg
        | arr vs => exact ihe pre rest acc hrest hg

theorem goodRow_flatten (r : Row) : GoodRow (flatten r "" []) :=
  (flatten_good (sizeOf r)).2.1 r "" [] le_rfl goodRow_nil

theorem empty_append_left (s : String) : "" ++ s = s := by
  apply String.ext
  simp [String.data_append]

theorem flatten_flat_append (r : Row) : ∀ acc : Row,
    (∀ p ∈ r, isFlatVal p.2 = true) → (rowKeys (acc ++ r)).Nodup →
    flatten r "" acc = acc ++ r := by
  induction r with
  | nil => intro acc _ _; simp [flatten]
  | cons p rest ih =>
    intro acc hflat hnodup
    obtain ⟨rkey, v⟩ := p
    simp only [flatten, empty_append_left]
    have hvflat : isFlatVal v = true := hflat (rkey, v) (by simp)
    have hstep : flattenValue rkey v acc = acc ++ [(rkey, v)] := by
      have hk : rkey ∉ rowKeys acc := by
        simp only [rowKeys, List.map_append, List.map_cons] at hnodup
        rw [List.nodup_append] at hnodup
        exact fun hm => hnodup.2.2 hm (by simp)
      cases v with
      | int m => exact assign_not_mem acc rkey _ hk
      | str s => exact assign_not_mem acc rkey _ hk
      | bool b => exact assign_not_mem acc rkey _ hk
      | arr vs => simp [isFlatVal] at hvflat
      | obj m => simp [isFlatVal] at hvflat
    rw [hstep, ih (acc ++ [(rkey, v)]) (fun q hq => hflat q (by simp [hq]))
      (by simpa using hnodup)]
    simp

theorem rowGet_assign_ne (r : Row) (k : String) (v : Value) (k' : String) (h : k' ≠ k) :
    rowGet (assign r k v) k' = rowGet r k' := by
  unfold assign
  by_cases ha : (r.any fun p => p.1 = k) = true
  · simp only [ha, if_true]
    exact rowGet_map_overwrite_ne r k v k' h
  · have h' : (r.any fun p => p.1 = k) = false := by
      revert ha; cases r.any fun p => p.1 = k <;> simp
    simp only [h', Bool.false_eq_true, if_false]
    rw [rowGet_append]
    cases hg : rowGet r k' with
    | some w => simp
    | none =>
      have h1 : ¬(k = k') := fun e => h e.symm
      simp [rowGet_cons, h1, rowGet]

theorem mid_refl (r : Row) : MidRow r r := fun _ => Or.inl rfl

theorem piiStep_sets {r acc : Row} (hmid : MidRow r acc) (f : FieldSpec) (hp : f.PII = true) :
    rowGet (piiStep acc f) f.Source = some (.bool (piiBool r f.Source)) := by
  unfold piiStep
  simp only [hp, if_true]
  cases hv : rowGet acc f.Source with
  | none =>
    rw [rowGet_assign_self]
    have hz : piiBool r f.Source = false := by
      rcases hmid f.Source with he | he
      · have hr : rowGet r f.Source = none := by rw [← he]; exact hv
        simp [piiBool, hr]
      · rw [he] at hv; cases hv
    rw [hz]
  | some val =>
    rw [rowGet_assign_self]
    have hz : (!IsZeroOfUnderlyingType val) = piiBool r f.Source := by
      rcases hmid f.Source with he | he
      · have hr : rowGet r f.Source = some val := by rw [← he]; exact hv
        simp [piiBool, hr]
      · have : some val = some (Value.bool (piiBool r f.Source)) := hv.symm.trans he
        injection this with h2
        subst h2
        simp [IsZeroOfUnderlyingType]
    rw [hz]

theorem piiStep_untouched (acc : Row) (f : FieldSpec) (k : String)
    (h : f.PII = true → f.Source ≠ k) : rowGet (piiStep acc f) k = rowGet acc k := by
  unfold piiStep
  by_cases hp : f.PII = true
  · simp only [hp, if_true]
    have hk : k ≠ f.Source := fun e => (h hp) e.symm
    cases hv : rowGet acc f.Source with
    | none => exact rowGet_assign_ne _ _ _ _ hk
    | some val => exact rowGet_assign_ne _ _ _ _ hk
  · rw [if_neg hp]

theorem mid_step {r acc : Row} (h : MidRow r acc) (f : FieldSpec) : MidRow r (piiStep acc f) := by
  intro k
  by_cases hp : f.PII = true
  · by_cases hk : k = f.Source
    · subst hk; right; exact piiStep_sets h f hp
    · rw [piiStep_untouched acc f k (fun _ e => hk e.symm)]
      exact h k
  · rw [piiStep_untouched acc f k (fun hpp => absurd hpp hp)]
    exact h k

theorem piiStep_keeps {r acc : Row} (hmid : MidRow r acc) (f : FieldSpec) (k : String)
    (hk : rowGet acc k = some (.bool (piiBool r k))) :
    rowGet (piiStep acc f) k = some (.bool (piiBool r k)) := by
  by_cases hp : f.PII = true
  · by_cases he : k = f.Source
    · subst he; exact piiStep_sets hmid f hp
    · rw [piiStep_untouched acc f k (fun _ e => he e.symm)]; exact hk
  · rw [piiStep_untouched acc f k (fun hpp => absurd hpp hp)]; exact hk

theorem stable_piiFold {r : Row} (fs : List FieldSpec) : ∀ (acc : Row) (k : String),
    MidRow r acc → rowGet acc k = some (.bool (piiBool r k)) →
    rowGet (piiFold fs acc) k = some (.bool (piiBool r k)) := by
  induction fs with
  | nil => intro acc k _ hk; exact hk
  | cons f rest ih =>
    intro acc k hmid hk
    exact ih (piiStep acc f) k (mid_step hmid f) (piiStep_keeps hmid f k hk)

theorem piiFold_mem {r : Row} (fs : List FieldSpec) : ∀ acc : Row, MidRow r acc →
    ∀ f ∈ fs, f.PII = true →
    rowGet (piiFold fs acc) f.Source = some (.bool (piiBool r f.Source)) := by
  induction fs with
  | nil => intro acc _ f hf; cases hf
  | cons g rest ih =>
    intro acc hmid f hf hp
    rcases List.mem_cons.mp hf with rfl | hf'
    · exact stable_piiFold rest (piiStep acc f) f.Source (mid_step hmid f)
        (piiStep_sets hmid f hp)
    · exact ih (piiStep acc g) (mid_step hmid g) f hf' hp

theorem piiFold_untouched (fs : List FieldSpec) : ∀ (acc : Row) (k : String),
    (∀ f ∈ fs, f.PII = true → f.Source ≠ k) →
    rowGet (piiFold fs acc) k = rowGet acc k := by
  induction fs with
  | nil => intro acc k _; rfl
  | cons f rest ih =>
    intro acc k hno
    have h1 : rowGet (piiStep acc f) k = rowGet acc k :=
      piiStep_untouched acc f k (hno f (by simp))
    calc rowGet (piiFold rest (piiStep acc f)) k
        = rowGet (piiStep acc f) k := ih (piiStep acc f) k (fun g hg => hno g (by simp [hg]))
      _ = rowGet acc k := h1

theorem flattenElems_no_obj (pre : String) (vs : List Value) (acc : Row)
    (h : ∀ v ∈ vs, isObjVal v = false) : flattenElems pre vs acc = acc := by
  induction vs with
  | nil => rfl
  | cons v rest ih =>
    cases v with
    | obj m => exact absurd (h (Value.obj m) (by simp)) (by simp [isObjVal])
    | int n => exact ih fun v hv => h v (by simp [hv])
    | str s => exact ih fun v hv => h v (by simp [hv])
    | bool b => exact ih fun v hv => h v (by simp [hv])
    | arr vs' => exact ih fun v hv => h v (by simp [hv])

theorem flattenElems_eq_foldl (pre : String) (vs : List Value) : ∀ acc : Row,
    flattenElems pre vs acc
      = vs.foldl (fun a v => match v with | .obj m => flatten m pre a | _ => a) acc := by
  induction vs with
  | nil => intro acc; rfl
  | cons v rest ih =>
    intro acc
    cases v with
    | obj m => exact ih (flatten m pre acc)
    | int n => exact ih acc
    | str s => exact ih acc
    | bool b => exact ih acc
    | arr vs' => exact ih acc

theorem filter_zip_length (source : List Row) : ∀ labels : List Nat,
    labels.length = source.length → ∀ i : Nat,
    ((source.zip labels).filter (fun p => p.2 = i)).length
      = (labels.filter (fun l => l = i)).length := by
  induction source with
  | nil =>
    intro labels h i
    cases labels with
    | nil => rfl
    | cons a t => simp at h
  | cons r rs ih =>
    intro labels h i
    cases labels with
    | nil => simp at h
    | cons a t =>
      simp only [List.zip_cons_cons, List.filter_cons]
      by_cases ha : a = i <;> simp [ha, ih t (by simpa using h) i]

theorem indicator_sum_zero (a : Nat) : ∀ n : Nat, n ≤ a →
    ((List.range n).map (fun i => if a = i then (1 : Nat) else 0)).sum = 0 := by
  intro n
  induction n with
  | zero => intro _; rfl
  | succ m ih =>
    intro h
    rw [List.range_succ]
    simp only [List.map_append, List.sum_append, List.map_cons, List.map_nil]
    rw [ih (by omega)]
    have : ¬(a = m) := by omega
    simp [this]

theorem indicator_sum_one (a : Nat) : ∀ n : Nat, a < n →
    ((List.range n).map (fun i => if a = i then (1 : Nat) else 0)).sum = 1 := by
  intro n
  induction n with
  | zero => intro h; omega
  | succ m ih =>
    intro h
    rw [List.range_succ]
    simp only [List.map_append, List.sum_append, List.map_cons, List.map_nil]
    by_cases ha : a = m
    · subst ha
      rw [indicator_sum_zero a a le_rfl]
      simp
    · rw [ih (by omega)]
      simp [ha]

theorem runPipeline_isOk (t : Table) (ts : String) (r : Row) :
    ∃ r', runPipeline t ts r = Except.ok r' := ⟨_, rfl⟩

theorem exportData_foldl_spec (t : Table) (ts : String) (l : List Row) : ∀ res : ExportResult,
    res.err = none →
    (l.foldl (exportStep t ts) res).rows = res.rows + l.length ∧
    (l.foldl (exportStep t ts) res).err = none := by
  induction l with
  | nil => intro res h; exact ⟨by simp, h⟩
  | cons r rest ih =>
    intro res h
    obtain ⟨r', hr'⟩ := runPipeline_isOk t ts r
    have hstep : exportStep t ts res r
        = { rows := res.rows + 1, out := res.out ++ [r'], err := none } := by
      simp only [exportStep, h, hr']
    rw [List.foldl_cons, hstep]
    obtain ⟨h1, h2⟩ := ih { rows := res.rows + 1, out := res.out ++ [r'], err := none } rfl
    refine ⟨?_, h2⟩
    rw [h1]
    simp only [List.length_cons]
    omega

theorem exportData_spec (source : List Row) (t : Table) (ts : String) :
    (exportData source t ts).rows = source.length ∧ (exportData source t ts).err = none := by
  have h := exportData_foldl_spec t ts source { rows := 0, out := [], err := none } rfl
  simpa [exportData] using h

theorem shardRows_length (source : List Row) (labels : List Nat)
    (h : labels.length = source.length) (i : Nat) :
    (shardRows source labels i).length = (labels.filter (fun l => l = i)).length := by
  unfold shardRows
  rw [List.length_map]
  exact filter_zip_length source labels h i

theorem filter_count_sum (n : Nat) : ∀ labels : List Nat, (∀ l ∈ labels, l < n) →
    ((List.range n).map (fun i => (labels.filter (fun l => l = i)).length)).sum
      = labels.length := by
  intro labels
  induction labels with
  | nil => intro _; simp
  | cons a t ih =>
    intro hlt
    have hsplit : ∀ i : Nat, (((a :: t).filter (fun l => l = i)).length : Nat)
        = (if a = i then 1 else 0) + ((t.filter (fun l => l = i)).length) := by
      intro i
      by_cases ha : a = i <;> simp [List.filter_cons, ha] <;> omega
    simp only [hsplit]
    rw [List.sum_map_add]
    rw [indicator_sum_one a n (hlt a (by simp)), ih fun l hl => hlt l (by simp [hl])]
    simp [Nat.add_comm]

theorem sum_shard_counts (n : Nat) (source : List Row) (labels : List Nat) (t : Table)
    (ts : String) (hlen : labels.length = source.length) (hlt : ∀ l ∈ labels, l < n) :
    ((List.range n).map (fun i => (exportData (shardRows source labels i) t ts).rows)).sum
      = source.length := by
  have hpt : ∀ i : Nat, (exportData (shardRows source labels i) t ts).rows
      = (labels.filter (fun l => l = i)).length := by
    intro i
    rw [(exportData_spec _ t ts).1, shardRows_length source labels hlen i]
  simp only [hpt]
  rw [filter_count_sum n labels hlt]
  exact hlen

theorem runAtomicSched_spec (sched : List Bool) : ∀ (c : Nat) (dA dB : Bool),
    runAtomicSched sched c dA dB
      = c + (if dA = false ∧ true ∈ sched then 1 else 0)
          + (if dB = false ∧ false ∈ sched then 1 else 0) := by
  induction sched with
  | nil => intro c dA dB; simp [runAtomicSched]
  | cons b rest ih =>
    intro c dA dB
    cases b <;> cases dA <;> cases dB <;>
      simp [runAtomicSched, atomicStep, ih, List.mem_cons] <;>
      split_ifs <;> omega

/-- C3: `exportData` applies the five per-row stages in the fixed order
Flatten, PiiMask, FieldRemap, DateStamp, Count; on the spec's worked
example, Flatten yields `{"a.b":5,"a.c":0}`, PiiMask yields
`{"a.b":5,"a.c":false}`, FieldRemap yields `{"x":5,"y":false}`, DateStamp
yields `{"x":5,"y":false,"_data_timestamp":"2024-01-01T00:00:00Z"}`, which
is the pipeline's output, and the Count stage counts the one row. -/
theorem C3_pipeline_example :
    Flattener exampleRow = Except.ok [("a.b", .int 5), ("a.c", .int 0)]
    ∧ GetExistentialTransformerFn exampleTable [("a.b", .int 5), ("a.c", .int 0)]
        = Except.ok [("a.b", .int 5), ("a.c", .bool false)]
    ∧ Fieldmap exampleTable.FieldMap [("a.b", .int 5), ("a.c", .bool false)]
        = Except.ok [("x", .int 5), ("y", .bool false)]
    ∧ GetPopulateDateFn "_data_timestamp" "2024-01-01T00:00:00Z" [("x", .int 5), ("y", .bool false)]
        = Except.ok [("x", .int 5), ("y", .bool false), ("_data_timestamp", .str "2024-01-01T00:00:00Z")]
    ∧ runPipeline exampleTable "2024-01-01T00:00:00Z" exampleRow
        = Except.ok [("x", .int 5), ("y", .bool false), ("_data_timestamp", .str "2024-01-01T00:00:00Z")]
    ∧ exportData [exampleRow] exampleTable "2024-01-01T00:00:00Z"
        = { rows := 1,
            out := [[("x", .int 5), ("y", .bool false), ("_data_timestamp", .str "2024-01-01T00:00:00Z")]],
            err := none } :=
  ⟨rfl, rfl, rfl, rfl, rfl, rfl⟩

/-- C5: `createManifest` produces one entry per input filename, in input
order, each entry's url being `s3://<bucket>/<filename>` and its mandatory
field `true`; the serialized body is `{"entries":[...]}` in that order; and
the manifest's object path is the deterministic
`.../mongo_<dest>_<timestamp>.manifest` name derived from the table's
destination and the run timestamp. -/
theorem C5_createManifest :
    (∀ (bucket : String) (files : List String),
      (createManifest bucket files).Entries
        = files.map (fun fn => { url := "s3://" ++ bucket ++ "/" ++ fn, mandatory := true }))
    ∧ (∀ (bucket : String) (files : List String), ∀ e ∈ (createManifest bucket files).Entries,
        e.mandatory = true)
    ∧ (∀ (bucket : String) (files : List String),
        manifestJson (createManifest bucket files)
          = "\x7b\"entries\":[" ++ String.intercalate ","
              (files.map (fun fn => manifestEntryJson
                { url := "s3://" ++ bucket ++ "/" ++ fn, mandatory := true })) ++ "]\x7d")
    ∧ (∀ (ts dest : String) (y m d : Nat), parseRFC3339 ts = some (y, m, d) →
        formatFilename ts dest "" ".manifest"
          = "mongo/" ++ dest ++ "/_data_timestamp_year=" ++ pad2 y ++
            "/_data_timestamp_month=" ++ pad2 m ++ "/_data_timestamp_day=" ++ pad2 d ++
            "/" ++ ("mongo_" ++ dest ++ "_" ++ ts ++ ".manifest")) := by
  refine ⟨fun bucket files => rfl, ?_, ?_, ?_⟩
  · intro bucket files e he
    rw [show (createManifest bucket files).Entries
        = files.map (fun fn => { url := "s3://" ++ bucket ++ "/" ++ fn, mandatory := true }) from rfl] at he
    rcases List.mem_map.mp he with ⟨fn, _, rfl⟩
    rfl
  · intro bucket files
    simp only [manifestJson, createManifest, List.map_map]
    rfl
  · intro ts dest y m d hparse
    simp [formatFilename, hparse, String.append_assoc]

/-- C5 witness: the manifest for two shard files in a concrete bucket, and
the manifest path for a concrete timestamp and destination. -/
theorem C5_createManifest_witness :
    (createManifest "clever-analytics" ["f_0.json.gz", "f_1.json.gz"]).Entries
      = [{ url := "s3://clever-analytics/f_0.json.gz", mandatory := true },
         { url := "s3://clever-analytics/f_1.json.gz", mandatory := true }]
    ∧ formatFilename "2024-01-01T00:00:00Z" "students" "" ".manifest"
      = "mongo/students/_data_timestamp_year=2024/_data_timestamp_month=01/_data_timestamp_day=01/"
        ++ "mongo_students_2024-01-01T00:00:00Z.manifest" := by
  constructor
  · exact C5_createManifest.1 "clever-analytics" ["f_0.json.gz", "f_1.json.gz"]
  · have h := C5_createManifest.2.2.2 "2024-01-01T00:00:00Z" "students" 2024 1 1 (by rfl)
    simpa using h

/-- C6 counterexample: at timestamp 2024-01-01T00:00:00Z, collection
`students`, shard index 0, `formatFilename` produces a path under a leading
`mongo/` directory, which the claimed pattern
`<collection>/_data_timestamp_year=.../mongo_<dest>_<timestamp>_<i>.json.gz`
lacks, so the produced path does not match the claimed pattern. -/
theorem C6_counterexample :
    formatFilename "2024-01-01T00:00:00Z" "students" "0" ".json.gz"
      = "mongo/students/_data_timestamp_year=2024/_data_timestamp_month=01/_data_timestamp_day=01/mongo_students_2024-01-01T00:00:00Z_0.json.gz"
    ∧ claimedShardPath "2024-01-01T00:00:00Z" "students" "0" 2024 1 1
      = "students/_data_timestamp_year=2024/_data_timestamp_month=01/_data_timestamp_day=01/mongo_students_2024-01-01T00:00:00Z_0.json.gz"
    ∧ formatFilename "2024-01-01T00:00:00Z" "students" "0" ".json.gz"
      ≠ claimedShardPath "2024-01-01T00:00:00Z" "students" "0" 2024 1 1 := by
  refine ⟨by rfl, by rfl, by decide⟩

/-- C6 (amended): for every timestamp that parses as RFC3339, collection
name and shard index, the shard object path produced by `formatFilename`
is the claimed pattern prefixed with the literal `mongo/` directory:
`mongo/<collection>/_data_timestamp_year=YYYY/_data_timestamp_month=MM/_data_timestamp_day=DD/mongo_<dest>_<timestamp>[_<shardIndex>].json.gz`,
with the `_<shardIndex>` suffix present exactly when a shard index is
supplied. -/
theorem C6_shard_path (ts coll idx : String) (y m d : Nat)
    (hparse : parseRFC3339 ts = some (y, m, d)) :
    formatFilename ts coll idx ".json.gz" = "mongo/" ++ claimedShardPath ts coll idx y m d := by
  by_cases hidx : idx = "" <;>
    simp [formatFilename, claimedShardPath, hparse, hidx, String.append_assoc]

/-- C6 witness: the amended pattern at a concrete timestamp, collection and
index. -/
theorem C6_shard_path_witness :
    formatFilename "2024-01-01T00:00:00Z" "students" "1" ".json.gz"
      = "mongo/" ++ claimedShardPath "2024-01-01T00:00:00Z" "students" "1" 2024 1 1 :=
  C6_shard_path "2024-01-01T00:00:00Z" "students" "1" 2024 1 1 (by rfl)

/-- C7: flattening a row entry holding an array stores the array's JSON
serialization under the array's own flattened key and then folds over the
elements, flattening exactly the nested-mapping elements with the same key
prefix (so later assignments can overwrite earlier ones); an array with no
nested-mapping element contributes only the serialized-string entry; and on
a concrete array of two mappings sharing a sub-key, the second element's
value overwrites the first's. -/
theorem C7_flatten_arrays :
    (∀ (key : String) (vs : List Value) (acc : Row),
        flattenValue key (.arr vs) acc
          = vs.foldl (fun a v => match v with | .obj m => flatten m (key ++ ".") a | _ => a)
              (assign acc key (.str (jsonMarshal (.arr vs)))))
    ∧ (∀ (key : String) (vs : List Value) (acc : Row), (∀ v ∈ vs, isObjVal v = false) →
        flattenValue key (.arr vs) acc = assign acc key (.str (jsonMarshal (.arr vs))))
    ∧ flatten [("a", .arr [.obj [("s", .int 1)], .obj [("s", .int 2)]])] "" []
        = [("a", .str "[\x7b\"s\":1\x7d,\x7b\"s\":2\x7d]"), ("a.s", .int 2)] := by
  refine ⟨?_, ?_, by rfl⟩
  · intro key vs acc
    exact flattenElems_eq_foldl (key ++ ".") vs (assign acc key (.str (jsonMarshal (.arr vs))))
  · intro key vs acc h
    exact flattenElems_no_obj (key ++ ".") vs (assign acc key (.str (jsonMarshal (.arr vs)))) h

/-- C7 witness: a scalar-only array keeps only its serialized-string
entry. -/
theorem C7_flatten_arrays_witness :
    flattenValue "k" (.arr [.int 7]) [] = assign [] "k" (.str (jsonMarshal (.arr [.int 7]))) :=
  C7_flatten_arrays.2.1 "k" [.int 7] [] (by decide)

/-- C8: the Flattener is idempotent: for every row, applying it twice
yields the same result as applying it once. -/
theorem C8_flatten_idempotent (r : Row) : (Flattener r).bind Flattener = Flattener r := by
  have hg := goodRow_flatten r
  show Except.ok (flatten (flatten r "" []) "" []) = Except.ok (flatten r "" [])
  rw [flatten_flat_append (flatten r "" []) [] hg.1 (by simpa using hg.2)]
  simp

/-- C10: the Flatten stage is total: the transform returned by `Flattener`
always yields `(row, nil)` and never a transform error; on array values it
unconditionally assigns the JSON-serialization string under the array's key
(the embedded serializer is total — the Go code discards `json.Marshal`'s
error and uses the resulting string regardless). -/
theorem C10_flattener_total (r : Row) :
    Flattener r = Except.ok (flatten r "" [])
    ∧ (∀ e : TransformError, Flattener r ≠ Except.error e)
    ∧ (∀ (key : String) (vs : List Value) (acc : Row),
        flattenValue key (.arr vs) acc
          = flattenElems (key ++ ".") vs (assign acc key (.str (jsonMarshal (.arr vs))))) :=
  ⟨rfl, fun _ h => Except.noConfusion h, fun _ _ _ => rfl⟩

/-- C4: the existential transformer returns `(row, nil)`; for every row and
every PII-marked FieldSpec, the final row holds at the field's source path
the boolean `false` when the field was absent from the input row or present
with the zero value of its kind, and `true` when present non-zero; every
key that is not the source path of some PII field is left unchanged. -/
theorem C4_existential_transformer (t : Table) (r : Row) :
    GetExistentialTransformerFn t r = Except.ok (piiFold t.Fields r)
    ∧ (∀ f ∈ t.Fields, f.PII = true →
        rowGet (piiFold t.Fields r) f.Source = some (.bool (piiBool r f.Source)))
    ∧ (∀ k : String, (∀ f ∈ t.Fields, f.PII = true → f.Source ≠ k) →
        rowGet (piiFold t.Fields r) k = rowGet r k) :=
  ⟨rfl,
   fun f hf hp => piiFold_mem t.Fields r (mid_refl r) f hf hp,
   fun k hk => piiFold_untouched t.Fields r k hk⟩

/-- C4 witness: on the row `{"a.c": 0}` with the example table, the PII
field `a.c` (present with the zero value `0`) becomes `false`, and the
non-PII source `a.b` stays absent. -/
theorem C4_existential_transformer_witness :
    rowGet (piiFold exampleTable.Fields [("a.c", Value.int 0)]) "a.c" = some (Value.bool false)
    ∧ rowGet (piiFold exampleTable.Fields [("a.c", Value.int 0)]) "a.b" = none := by
  have h := C4_existential_transformer exampleTable [("a.c", Value.int 0)]
  constructor
  · have h1 := h.2.1 { Destination := "y", Source := "a.c", PII := true } (by decide) rfl
    simpa using h1
  · have h2 := h.2.2 "a.b" (by decide)
    simpa using h2

/-- C1: under exactly-once delivery of each source row to one of the
`numFiles` shard workers, the sum of the per-shard `exportData` row counts
always equals the number of rows read from the source; and whenever the two
totals differ, the post-barrier check fails the run with the consistency
fatal before any manifest is built or published. -/
theorem C1_row_count_conservation (numFiles : Nat) (source : List Row) (labels : List Nat)
    (table : Table) (ts : String)
    (hlen : labels.length = source.length) (hlab : ∀ l ∈ labels, l < numFiles) :
    ((List.range numFiles).map
        (fun i => (exportData (shardRows source labels i) table ts).rows)).sum = source.length
    ∧ (∀ (written read : Int) (bucket : String) (files : List String) (dest ts' : String)
          (ok : Bool), written ≠ read →
        verifyAndPublish written read bucket files dest ts' ok
            = RunOutcome.fatalConsistency written read
          ∧ manifestPublished (verifyAndPublish written read bucket files dest ts' ok) = false) := by
  refine ⟨sum_shard_counts numFiles source labels table ts hlen hlab, ?_⟩
  intro written read bucket files dest ts' ok hne
  unfold verifyAndPublish
  rw [if_pos hne]
  exact ⟨rfl, rfl⟩

/-- C1 witness: two rows fanned out to two shards sum to two; a run with
totals 1 ≠ 0 ends in the consistency fatal with no manifest. -/
theorem C1_row_count_conservation_witness :
    ((List.range 2).map
        (fun i => (exportData (shardRows [exampleRow, exampleRow] [0, 1] i)
          exampleTable "2024-01-01T00:00:00Z").rows)).sum = 2
    ∧ manifestPublished (verifyAndPublish 1 0 "b" [] "d" "t" true) = false := by
  have h := C1_row_count_conservation 2 [exampleRow, exampleRow] [0, 1] exampleTable
    "2024-01-01T00:00:00Z" (by rfl) (by decide)
  exact ⟨h.1, (h.2 1 0 "b" [] "d" "t" true (by decide)).2⟩

/-- C2: if any shard's upload returns an error the run ends in a fatal
outcome with the manifest never uploaded; and if the row-count
reconciliation finds the totals unequal, the run ends in the consistency
fatal and the manifest is never uploaded. -/
theorem C2_fatal_paths :
    (∀ (numFiles : Nat) (source : List Row) (labels : List Nat) (table : Table)
        (bucket timestamp : String) (uploadOk : Nat → Bool) (manifestUploadOk : Bool) (i : Nat),
        i < numFiles → uploadOk i = false →
        manifestPublished
          (runMain numFiles source labels table bucket timestamp uploadOk manifestUploadOk)
          = false)
    ∧ (∀ (written read : Int) (bucket : String) (files : List String) (dest ts : String)
          (ok : Bool), written ≠ read →
        verifyAndPublish written read bucket files dest ts ok
            = RunOutcome.fatalConsistency written read
          ∧ manifestPublished (verifyAndPublish written read bucket files dest ts ok) = false) := by
  constructor
  · intro n source labels table bucket ts up mok i hi hup
    simp only [runMain]
    split
    · rfl
    · split
      · rfl
      · next hnone =>
        exfalso
        rw [List.find?_eq_none] at hnone
        have hcontra := hnone i (List.mem_range.mpr hi)
        simp [hup] at hcontra
  · intro written read bucket files dest ts ok hne
    unfold verifyAndPublish
    rw [if_pos hne]
    exact ⟨rfl, rfl⟩

/-- C2 witness: a one-shard run whose upload fails publishes no manifest;
unequal totals 1 ≠ 0 end in the consistency fatal with no manifest. -/
theorem C2_fatal_paths_witness :
    manifestPublished (runMain 1 [] [] exampleTable "b" "t" (fun _ => false) true) = false
    ∧ manifestPublished (verifyAndPublish 1 0 "b" [] "d" "t" true) = false :=
  ⟨C2_fatal_paths.1 1 [] [] exampleTable "b" "t" (fun _ => false) true 0 (by decide) rfl,
   (C2_fatal_paths.2 1 0 "b" [] "d" "t" true (by decide)).2⟩

/-- C9 counterexample: the rows-read counter `totalMongoRows` is updated by
the plain increment `totalMongoRows++` (main.go line 301), not by an atomic
increment. -/
theorem C9_counterexample : totalMongoRowsIncrement ≠ IncrementStyle.atomic := by
  decide

/-- C9 (amended): the counter updated with an atomic increment
(`atomic.AddInt64`) is `totalSummedRows`, the accumulator of the per-shard
counts written by the N concurrent shard workers, while the rows-read
counter `totalMongoRows` is incremented non-atomically (`totalMongoRows++`)
inside the single `transforms.Each` stage wrapping the shared source; in
the interleaving model two concurrent atomic increments always yield 2 (no
update is lost) whereas plain read-modify-write increments admit a schedule
losing an update; and the sum of the per-shard row counts stays in
lockstep with the rows read under exactly-once fan-out. -/
theorem C9_counter_increments :
    totalMongoRowsIncrement = IncrementStyle.plain
    ∧ totalSummedRowsIncrement = IncrementStyle.atomic
    ∧ (∀ sched : List Bool, true ∈ sched → false ∈ sched → execAtomic sched = 2)
    ∧ execPlain [true, false, true, false] = 1
    ∧ (∀ (numFiles : Nat) (source : List Row) (labels : List Nat) (table : Table) (ts : String),
        labels.length = source.length → (∀ l ∈ labels, l < numFiles) →
        ((List.range numFiles).map
            (fun i => (exportData (shardRows source labels i) table ts).rows)).sum
          = source.length) := by
  refine ⟨rfl, rfl, ?_, rfl, ?_⟩
  · intro sched hA hB
    unfold execAtomic
    rw [runAtomicSched_spec]
    simp [hA, hB]
  · intro n source labels table ts hlen hlab
    exact sum_shard_counts n source labels table ts hlen hlab

/-- C9 witness: both threads scheduled once atomically yield 2; the
two-shard fan-out of two rows sums to 2. -/
theorem C9_counter_increments_witness :
    execAtomic [true, false] = 2
    ∧ ((List.range 2).map
        (fun i => (exportData (shardRows [exampleRow, exampleRow] [1, 0] i)
          exampleTable "t").rows)).sum = 2 :=
  ⟨C9_counter_increments.2.2.1 [true, false] (by decide) (by decide),
   C9_counter_increments.2.2.2.2 2 [exampleRow, exampleRow] [1, 0] exampleTable "t"
     (by rfl) (by decide)⟩
